import Mathlib

/-!
Verification of the ARMI nuclide-directory core (armi/nucDirectory).

This file gives a shallow embedding of the claim-relevant parts of
`nuclides.py`, `chart.py`, `elements.py` and `nuclideBases.py`, and proves
or refutes the specification claims about them.  Python floats are embedded
as rationals, Python dicts as insertion-ordered association lists, Python
sets of objects as lists with identity keys (`oid` fields model object
identity, which is what Python's default `__eq__` compares when a class
defines `__hash__` but not `__eq__`).
-/

namespace NucDir

/-! ## Decimal rendering

Embedding of Python decimal string formatting (`"{:d}"`, `"{:03d}"`,
`str(n)`) used by `Nuclide.getMcnpId` and `Nuclide._createLabel`.
The renderer is written with an explicit fuel argument so that it is
structural (and hence evaluates by kernel reduction); `decDigitsAux_congr`
shows the fuel is irrelevant once it exceeds the number being rendered. -/

def decDigitsAux : Nat → Nat → List Char
  | 0, _ => []
  | fuel + 1, n =>
    if n < 10 then [Nat.digitChar n]
    else decDigitsAux fuel (n / 10) ++ [Nat.digitChar (n % 10)]

def decDigits (n : Nat) : List Char := decDigitsAux (n + 1) n

/-- Decimal string of a natural number, as Python `str`/`"{:d}"` renders it. -/
def decStr (n : Nat) : String := ⟨decDigits n⟩

theorem decDigitsAux_congr : ∀ f₁ f₂ n, n < f₁ → n < f₂ →
    decDigitsAux f₁ n = decDigitsAux f₂ n := by
  intro f₁
  induction f₁ with
  | zero => intro f₂ n h; omega
  | succ f ih =>
    intro f₂ n h₁ h₂
    match f₂, h₂ with
    | f₂ + 1, _ =>
      show (if n < 10 then _ else _) = (if n < 10 then _ else _)
      by_cases hn : n < 10
      · simp [hn]
      · simp only [if_neg hn]
        rw [ih f₂ (n / 10) (by omega) (by omega)]

theorem decDigits_eq (n : Nat) :
    decDigits n = if n < 10 then [Nat.digitChar n]
      else decDigits (n / 10) ++ [Nat.digitChar (n % 10)] := by
  show decDigitsAux (n + 1) n = _
  by_cases hn : n < 10
  · simp [decDigitsAux, hn]
  · show (if n < 10 then _ else decDigitsAux n (n / 10) ++ _) = _
    simp only [if_neg hn]
    rw [decDigitsAux_congr n (n / 10 + 1) (n / 10) (by omega) (by omega)]
    rfl

/-- Parse a digit string back to the number it denotes. -/
def decVal (cs : List Char) : Nat :=
  cs.foldl (fun acc c => 10 * acc + (c.toNat - 48)) 0

theorem decVal_append (cs : List Char) (c : Char) :
    decVal (cs ++ [c]) = 10 * decVal cs + (c.toNat - 48) := by
  simp [decVal, List.foldl_append]

theorem digitChar_toNat : ∀ n, n < 10 → (Nat.digitChar n).toNat = 48 + n := by
  decide

theorem decVal_decDigits (n : Nat) : decVal (decDigits n) = n := by
  induction n using Nat.strong_induction_on with
  | _ n ih =>
    rw [decDigits_eq]
    by_cases hn : n < 10
    · simp only [if_pos hn]
      show decVal ([] ++ [Nat.digitChar n]) = n
      rw [decVal_append, digitChar_toNat n hn]
      simp [decVal]
    · simp only [if_neg hn]
      rw [decVal_append, ih (n / 10) (by omega), digitChar_toNat (n % 10) (by omega)]
      omega

theorem decDigits_injective {m n : Nat} (h : decDigits m = decDigits n) : m = n := by
  have := decVal_decDigits m
  rw [h, decVal_decDigits] at this
  omega

/-- Embedding of Python `"{:03d}"`: zero-pad the decimal digits to width 3. -/
def zeroPad3 (n : Nat) : List Char :=
  (if n < 10 then ['0', '0'] else if n < 100 then ['0'] else []) ++ decDigits n

theorem decDigits_small {n : Nat} (h : n < 10) : decDigits n = [Nat.digitChar n] := by
  rw [decDigits_eq, if_pos h]

/-- The digits of `z * 1000 + a` (for `1 ≤ z`, `a ≤ 999`) are the digits of `z`
followed by the three zero-padded digits of `a`. -/
theorem decDigits_mul1000_add (z a : Nat) (hz : 1 ≤ z) (ha : a ≤ 999) :
    decDigits (z * 1000 + a) = decDigits z ++ zeroPad3 a := by
  have h1 : decDigits (z * 1000 + a)
      = decDigits (z * 100 + a / 10) ++ [Nat.digitChar (a % 10)] := by
    rw [decDigits_eq, if_neg (by omega)]
    have e1 : (z * 1000 + a) / 10 = z * 100 + a / 10 := by omega
    have e2 : (z * 1000 + a) % 10 = a % 10 := by omega
    rw [e1, e2]
  have h2 : decDigits (z * 100 + a / 10)
      = decDigits (z * 10 + a / 100) ++ [Nat.digitChar (a / 10 % 10)] := by
    rw [decDigits_eq, if_neg (by omega)]
    have e1 : (z * 100 + a / 10) / 10 = z * 10 + a / 100 := by omega
    have e2 : (z * 100 + a / 10) % 10 = a / 10 % 10 := by omega
    rw [e1, e2]
  have h3 : decDigits (z * 10 + a / 100)
      = decDigits z ++ [Nat.digitChar (a / 100)] := by
    rw [decDigits_eq, if_neg (by omega)]
    have e1 : (z * 10 + a / 100) / 10 = z := by omega
    have e2 : (z * 10 + a / 100) % 10 = a / 100 := by omega
    rw [e1, e2]
  rw [h1, h2, h3]
  have hpad : zeroPad3 a
      = [Nat.digitChar (a / 100), Nat.digitChar (a / 10 % 10), Nat.digitChar (a % 10)] := by
    unfold zeroPad3
    by_cases h10 : a < 10
    · rw [if_pos h10, decDigits_small h10]
      have e1 : a / 100 = 0 := by omega
      have e2 : a / 10 % 10 = 0 := by omega
      have e3 : a % 10 = a := by omega
      rw [e1, e2, e3]
      rfl
    · by_cases h100 : a < 100
      · rw [if_neg h10, if_pos h100]
        rw [decDigits_eq, if_neg h10, decDigits_small (by omega : a / 10 < 10)]
        have e1 : a / 100 = 0 := by omega
        have e2 : a / 10 % 10 = a / 10 := by omega
        rw [e1, e2]
        rfl
      · rw [if_neg h10, if_neg h100]
        rw [decDigits_eq, if_neg (by omega : ¬ a < 10)]
        rw [decDigits_eq (a / 10), if_neg (by omega : ¬ a / 10 < 10)]
        rw [decDigits_small (by omega : a / 10 / 10 < 10)]
        have e1 : a / 10 / 10 = a / 100 := by omega
        rw [e1]
        simp
  rw [hpad]
  simp

/-! ## Species model (`nuclides.py`, `chart.py`)

`Nuclide` carries the fields used by the claims.  The Python class defines
`__hash__` but no `__eq__`, so Python equality between nuclides is object
identity; the `oid` field models object identity.  The `element`
back-reference is not stored (the claims only read `element.z` and
`element.symbol` at call sites, where the `Element` is passed explicitly). -/

structure Nuclide where
  oid : Nat
  z : Nat
  a : Nat
  state : Nat
  weight : ℚ
  abundance : ℚ
  name : String
  label : String
deriving DecidableEq

/-- Element from `chart.py`: `z`, `symbol`, `name`, derived `standardWeight`
(initialised to `None`), and the owned set of isotopes.  The isotope set uses
Python-set semantics over objects (identity-keyed, see `Element.append`). -/
structure Element where
  z : Nat
  symbol : String
  name : String
  standardWeight : Option ℚ
  isotopes : List Nuclide
deriving DecidableEq

/-- Embedding of `Element.__eq__`: compares the `(z, symbol, name)` triple. -/
def Element.pyEq (e₁ e₂ : Element) : Prop :=
  e₁.z = e₂.z ∧ e₁.symbol = e₂.symbol ∧ e₁.name = e₂.name

/-- Embedding of `Element.__hash__`, which is `hash(self.name)`: the hash key is the name alone
(the Python hash is modelled as the hashed value itself). -/
def Element.pyHash (e : Element) : String := e.name

/-- Embedding of `Nuclide.__hash__`, which is `hash((self.a, self.z, self.state))`. -/
def Nuclide.pyHash (n : Nuclide) : Nat × Nat × Nat := (n.a, n.z, n.state)

/-- Embedding of `Nuclide` equality: the class defines no `__eq__`, so Python falls back to
`object.__eq__`, i.e. reference identity, modelled by the `oid` field. -/
def Nuclide.pyEq (n₁ n₂ : Nuclide) : Prop := n₁.oid = n₂.oid

/-- Embedding of `Element.append` (`chart.py`), i.e. `self.isotopes.add(nuclide)`.  Set insertion
over objects: `Nuclide.__eq__` is identity, so a nuclide is already present
exactly when the same object (same `oid`) is already in the set. -/
def Element.append (e : Element) (nuclide : Nuclide) : Element :=
  if e.isotopes.any (fun m => m.oid == nuclide.oid) then e
  else { e with isotopes := e.isotopes ++ [nuclide] }

/-- Embedding of `Element.updateWeight` (`chart.py`): recompute `standardWeight` as the
abundance-weighted mean over `self.isotopes` whenever the total abundance is
positive; otherwise leave `standardWeight` untouched. -/
def Element.updateWeight (e : Element) : Element :=
  let totalAbundance : ℚ := (e.isotopes.map (fun nuc => nuc.abundance)).sum
  let weighted : ℚ := (e.isotopes.map (fun nuc => nuc.weight * nuc.abundance)).sum
  if totalAbundance > 0 then
    { e with standardWeight := some (weighted / totalAbundance) }
  else e

/-- One element's share of `ChartOfTheNuclides._connectElements`: append every
nuclide with this element's `z` into the isotope set, then recompute the
standard weight. -/
def connectElement (e : Element) (nucs : List Nuclide) : Element :=
  Element.updateWeight (nucs.foldl Element.append e)

/-- The character table `"0123456789ABCDEFGHIJ"` indexed by
`(a % 10) + state * 10` in `Nuclide._createLabel`.  Python indexing raises
for an out-of-range index; the claims restrict `state` to `{0, 1}`, which
keeps the index in range, so the default character is never produced there. -/
def labelDigits : List Char :=
  ['0', '1', '2', '3', '4', '5', '6', '7', '8', '9',
   'A', 'B', 'C', 'D', 'E', 'F', 'G', 'H', 'I', 'J']

/-- Embedding of the static method `Nuclide._createLabel`: symbol, then the decimal rendering
of `(a % 10 ^ (4 - len(symbol))) // 10`, then the state-encoding last digit. -/
def Nuclide.createLabel (element : Element) (a state : Nat) : String :=
  ⟨element.symbol.data
    ++ decDigits ((a % 10 ^ (4 - element.symbol.length)) / 10)
    ++ [labelDigits.getD (a % 10 + state * 10) ' ']⟩

/-- Embedding of `Nuclide.getMcnpId`: `"{z:d}{a:03d}"` after the metastable offset, with
the hard-coded Americium-242 exception (the offset is applied when the state
is *not* 1). -/
def Nuclide.getMcnpId (n : Nuclide) : String :=
  ⟨decDigits n.z ++ zeroPad3 (
    if n.z = 95 ∧ n.a = 242 then
      (if n.state ≠ 1 then n.a + 300 + 100 * max n.state 1 else n.a)
    else
      (if n.state > 0 then n.a + 300 + 100 * n.state else n.a))⟩

/-! ## Python dict helpers

A Python dict is embedded as an insertion-ordered association list;
assignment overwrites an existing binding in place or appends a new one. -/

def dictInsert {κ : Type} [DecidableEq κ] {β : Type}
    (d : List (κ × β)) (k : κ) (v : β) : List (κ × β) :=
  if d.any (fun kv => kv.1 = k) then
    d.map (fun kv => if kv.1 = k then (k, v) else kv)
  else d ++ [(k, v)]

def dictGet? {κ : Type} [DecidableEq κ] {β : Type}
    (d : List (κ × β)) (k : κ) : Option β :=
  (d.find? (fun kv => kv.1 = k)).map Prod.snd

/-! ## Nuclide registry (`chart.py`, `ChartOfTheNuclides.Nuclides`) -/

/-- State of `ChartOfTheNuclides.Nuclides`.  `_nuclides` is a Python set of
`Nuclide` objects: since `Nuclide` has `__hash__` but no `__eq__`, membership
is decided by object identity (`oid`).  `byDbName` is written as
`self.byDbName[nuclide.getDatabaseName] = nuclide` in the source — the key is
the *bound method object* (a missing call), which compares by the identity of
its receiver, so it is modelled as keyed by `oid`. -/
structure NuclidesRegistry where
  nuclideSet : List Nuclide
  byName : List (String × Nuclide)
  byDbName : List (Nat × Nuclide)
  byLabel : List (String × Nuclide)
deriving DecidableEq

def emptyNuclidesRegistry : NuclidesRegistry := ⟨[], [], [], []⟩

/-- Embedding of `ChartOfTheNuclides.Nuclides.add`.  The returned `Option String` is the
raised `ValueError` message if any (the Python message interpolates
`repr(nuclide)`); on error the registry is returned unchanged, since the
`raise` precedes every mutation. -/
def NuclidesRegistry.add (r : NuclidesRegistry) (nuclide : Nuclide) :
    NuclidesRegistry × Option String :=
  if r.nuclideSet.any (fun m => m.oid == nuclide.oid) then
    (r, some "Nuclide already in directory")
  else
    ({ nuclideSet := r.nuclideSet ++ [nuclide],
       byName := dictInsert r.byName nuclide.name nuclide,
       byDbName := dictInsert r.byDbName nuclide.oid nuclide,
       byLabel := dictInsert r.byLabel nuclide.label nuclide }, none)

/-! ## `Nuclide.__init__` validation (`nuclides.py`) -/

inductive PyError
  | valueError (msg : String)
  | attributeError
deriving DecidableEq

/-- The claim-relevant kernel of `Nuclide.__init__`: the exactly-one-of
`element`/`z` validation followed by `self.z = z or element.z`.  Python `or`
returns its left operand when that operand is truthy (`z` not `None` and not
`0`), and otherwise evaluates `element.z`, which raises `AttributeError` when
`element` is `None`.  All remaining constructor lines are plain field
assignments of the other arguments. -/
def nuclideInitZ (element : Option Element) (z : Option Nat) : Except PyError Nat :=
  if ¬ (element.isNone ^^ z.isNone) then
    .error (.valueError "Either `element` or `z` must be provided, but not both")
  else
    match z with
    | some zv =>
      if zv ≠ 0 then .ok zv
      else
        match element with
        | some el => .ok el.z
        | none => .error .attributeError
    | none =>
      match element with
      | some el => .ok el.z
      | none => .error .attributeError

/-! ## Burn-chain imposition (`nuclideBases.py` / `nuclides.py`) -/

/-- A transmutation or decay edge.  The `Transmutation`/`DecayMode` classes
live in `armi.nucDirectory.transmutations`, outside the provided sources;
only the ordered list of alternative product names is needed here. -/
structure Interaction where
  productNuclides : List String
deriving DecidableEq

/-- Modelled from the spec: `getPreferredProduct` of
`armi.nucDirectory.transmutations` (the module is not among the provided
sources).  Per the spec it resolves the edge's preferred product nuclide name
restricted to the active set, and fails (Python `KeyError`, here `none`)
exactly when no product of the interaction is in the active set. -/
def Interaction.getPreferredProduct (i : Interaction) (active : List String) :
    Option String :=
  i.productNuclides.find? (fun p => p ∈ active)

/-- One entry of a burn-chain category dict: the key names the burn type
(`transmutation`, `decay` or `nuSF`) and the value is the interaction data. -/
inductive BurnDatum
  | transmutation (products : List String)
  | decay (products : List String)
  | nuSF (v : ℚ)
deriving DecidableEq

/-- The burn-chain-relevant state of one nuclide: its `trans`, `decays` and
`nuSF` fields. -/
structure BurnNuclide where
  trans : List Interaction
  decays : List Interaction
  nuSF : ℚ
deriving DecidableEq

/-- The loop body of `Nuclide._processBurnData`: a category dict with more
than one key is a malformed-input error; an empty one indexes past the end of
`list(keys)`; otherwise the single entry is appended to `trans`/`decays` or
assigns `nuSF`. -/
def processBurnCategories (nuc : BurnNuclide) :
    List (List BurnDatum) → Except String BurnNuclide
  | [] => .ok nuc
  | cat :: rest =>
    if cat.length > 1 then
      .error "Improperly defined burn-chain: a single burn type is expected"
    else
      match cat.head? with
      | none => .error "IndexError: list index out of range"
      | some (.transmutation ps) =>
        processBurnCategories { nuc with trans := nuc.trans ++ [⟨ps⟩] } rest
      | some (.decay ps) =>
        processBurnCategories { nuc with decays := nuc.decays ++ [⟨ps⟩] } rest
      | some (.nuSF v) =>
        processBurnCategories { nuc with nuSF := v } rest

/-- Embedding of `Nuclide._processBurnData`: clear the existing transmutation and decay
lists, then process every category. -/
def processBurnData (nuc : BurnNuclide) (burnInfo : List (List BurnDatum)) :
    Except String BurnNuclide :=
  processBurnCategories { nuc with trans := [], decays := [] } burnInfo

/-- The state read and written by `imposeBurnChain`: the module-level
`_burnChainImposed` flag and the `byName` table restricted to the fields that
`_processBurnData` mutates. -/
structure BurnDirectory where
  burnChainImposed : Bool
  byName : List (String × BurnNuclide)
deriving DecidableEq

def imposeAll (byName : List (String × BurnNuclide)) :
    List (String × List (List BurnDatum)) →
    Except String (List (String × BurnNuclide))
  | [] => .ok byName
  | (name, info) :: rest =>
    match dictGet? byName name with
    | none => .error ("KeyError: " ++ name)
    | some nuc =>
      match processBurnData nuc info with
      | .error e => .error e
      | .ok nuc2 => imposeAll (dictInsert byName name nuc2) rest

def burnChainWarning : String := "Burn chain already imposed. Skipping reimposition."

/-- Embedding of `imposeBurnChain` (`nuclideBases.py`): when `_burnChainImposed` is already
set, report a warning and return without touching any nuclide; otherwise set
the flag and apply `_processBurnData` to every named nuclide.  The second
component collects the warnings emitted through `runLog.warning`. -/
def imposeBurnChain (dir : BurnDirectory)
    (burnData : List (String × List (List BurnDatum))) :
    Except String (BurnDirectory × List String) :=
  if dir.burnChainImposed then
    .ok (dir, [burnChainWarning])
  else
    match imposeAll dir.byName burnData with
    | .error e => .error e
    | .ok m => .ok ({ burnChainImposed := true, byName := m }, [])

/-! ## Burn-chain closure engine
(`nuclideBases.py`, `initReachableActiveNuclidesThroughBurnChain`)

The number-density dict is an insertion-ordered association list with
rational quantities; `memo` is the visited set and `missing` the set of
recorded alternative-product groups (Python sets, embedded as deduplicated
lists; the Python `set.pop` of the worklist is embedded as taking the first
pending composition key).  `byName` is embedded as a total map, i.e. the runs
considered are those in which every visited active name is registered.  The
`while` loop is driven by an explicit fuel argument; `closureRun` answers
`none` when the fuel runs out before the worklist empties. -/

/-- The two edge lists of one directory entry (`nuclideObj.trans`,
`nuclideObj.decays`). -/
structure NucData where
  trans : List Interaction
  decays : List Interaction

def compKeys (comp : List (String × ℚ)) : List String := comp.map Prod.fst

structure ClosureState where
  comp : List (String × ℚ)
  memo : List String
  missing : List (List String)
deriving DecidableEq

/-- The body of the `for interaction in nuclideObj.trans + nuclideObj.decays`
loop: a resolved preferred product not yet in the composition is inserted
with quantity `0.0`; an unresolvable interaction records its full
alternative-product list in the `missing` set. -/
def applyInteraction (active : List String) (s : ClosureState)
    (i : Interaction) : ClosureState :=
  match i.getPreferredProduct active with
  | some p =>
    if p ∈ compKeys s.comp then s
    else { s with comp := s.comp ++ [(p, 0)] }
  | none =>
    if i.productNuclides ∈ s.missing then s
    else { s with missing := s.missing ++ [i.productNuclides] }

def applyInteractions (active : List String) :
    ClosureState → List Interaction → ClosureState
  | s, [] => s
  | s, i :: rest => applyInteractions active (applyInteraction active s i) rest

/-- One iteration of the `while` loop: pop a pending nuclide, mark it
visited, and — only when it is active — expand its interactions. -/
def closureStep (dir : String → NucData) (active : List String)
    (s : ClosureState) (n : String) : ClosureState :=
  let s1 : ClosureState := { s with memo := s.memo ++ [n] }
  if n ∈ active then
    applyInteractions active s1 ((dir n).trans ++ (dir n).decays)
  else s1

/-- Embedding of `set(numberDensityDict).difference(memo)`, recomputed at each iteration. -/
def pendingKeys (s : ClosureState) : List String :=
  (compKeys s.comp).filter (fun k => k ∉ s.memo)

def closureRun (dir : String → NucData) (active : List String) :
    Nat → ClosureState → Option ClosureState
  | 0, s => match pendingKeys s with | [] => some s | _ :: _ => none
  | fuel + 1, s =>
    match pendingKeys s with
    | [] => some s
    | n :: _ => closureRun dir active fuel (closureStep dir active s n)

/-- Python `" or ".join`-style concatenation used by
`_failOnMissingActiveNuclides` for one group of alternatives. -/
def orJoin : List String → String
  | [] => ""
  | [n] => n
  | n :: rest => n ++ " or " ++ orJoin rest

def missingGroupLines (i : Nat) : List (List String) → String
  | [] => ""
  | g :: rest => "\n " ++ decStr i ++ " - " ++ orJoin g ++ missingGroupLines (i + 1) rest

/-- Embedding of `_failOnMissingActiveNuclides`: the message of the raised `ValueError`,
enumerating every recorded group of alternative product names. -/
def failOnMissingActiveNuclides (missing : List (List String)) : String :=
  "Missing active nuclides in loading file. Add the following nuclides:"
    ++ missingGroupLines 1 missing

/-- Embedding of `initReachableActiveNuclidesThroughBurnChain`: run the closure loop, then
raise exactly when any missing group was recorded.  The result pairs the
composition dict (mutated in place in Python, hence returned even on
failure) with the raised error message, if any. -/
def initReachableActiveNuclidesThroughBurnChain (dir : String → NucData)
    (active : List String) (comp₀ : List (String × ℚ)) (fuel : Nat) :
    Option (List (String × ℚ) × Option String) :=
  (closureRun dir active fuel ⟨comp₀, [], []⟩).map (fun s =>
    (s.comp, if s.missing.isEmpty then none
      else some (failOnMissingActiveNuclides s.missing)))

/-! ## Closure-engine invariants -/

theorem compKeys_append (c d : List (String × ℚ)) :
    compKeys (c ++ d) = compKeys c ++ compKeys d := by
  simp [compKeys]

theorem applyInteraction_memo (active : List String) (s : ClosureState)
    (i : Interaction) : (applyInteraction active s i).memo = s.memo := by
  unfold applyInteraction
  cases i.getPreferredProduct active <;> dsimp only <;> split <;> rfl

theorem applyInteraction_comp (active : List String) (s : ClosureState)
    (i : Interaction) :
    ∃ ext, (applyInteraction active s i).comp = s.comp ++ ext
      ∧ ∀ e ∈ ext, e.2 = (0 : ℚ) := by
  unfold applyInteraction
  cases i.getPreferredProduct active with
  | none =>
    dsimp only
    split
    · exact ⟨[], by simp⟩
    · exact ⟨[], by simp⟩
  | some p =>
    dsimp only
    split
    · exact ⟨[], by simp⟩
    · exact ⟨[(p, 0)], by simp⟩

theorem applyInteraction_missing (active : List String) (s : ClosureState)
    (i : Interaction) :
    ∃ ext, (applyInteraction active s i).missing = s.missing ++ ext := by
  unfold applyInteraction
  cases i.getPreferredProduct active with
  | none =>
    dsimp only
    split
    · exact ⟨[], by simp⟩
    · exact ⟨[i.productNuclides], rfl⟩
  | some p =>
    dsimp only
    split
    · exact ⟨[], by simp⟩
    · exact ⟨[], by simp⟩

theorem applyInteractions_memo (active : List String) :
    ∀ (il : List Interaction) (s : ClosureState),
      (applyInteractions active s il).memo = s.memo := by
  intro il
  induction il with
  | nil => intro s; rfl
  | cons i rest ih =>
    intro s
    show (applyInteractions active (applyInteraction active s i) rest).memo = s.memo
    rw [ih, applyInteraction_memo]

theorem applyInteractions_comp (active : List String) :
    ∀ (il : List Interaction) (s : ClosureState),
      ∃ ext, (applyInteractions active s il).comp = s.comp ++ ext
        ∧ ∀ e ∈ ext, e.2 = (0 : ℚ) := by
  intro il
  induction il with
  | nil => intro s; exact ⟨[], by simp [applyInteractions]⟩
  | cons i rest ih =>
    intro s
    obtain ⟨e₁, h₁, hz₁⟩ := applyInteraction_comp active s i
    obtain ⟨e₂, h₂, hz₂⟩ := ih (applyInteraction active s i)
    refine ⟨e₁ ++ e₂, ?_, ?_⟩
    · show (applyInteractions active (applyInteraction active s i) rest).comp = _
      rw [h₂, h₁, List.append_assoc]
    · intro e he
      rcases List.mem_append.mp he with h | h
      · exact hz₁ e h
      · exact hz₂ e h

theorem applyInteractions_missing (active : List String) :
    ∀ (il : List Interaction) (s : ClosureState),
      ∃ ext, (applyInteractions active s il).missing = s.missing ++ ext := by
  intro il
  induction il with
  | nil => intro s; exact ⟨[], by simp [applyInteractions]⟩
  | cons i rest ih =>
    intro s
    obtain ⟨e₁, h₁⟩ := applyInteraction_missing active s i
    obtain ⟨e₂, h₂⟩ := ih (applyInteraction active s i)
    refine ⟨e₁ ++ e₂, ?_⟩
    show (applyInteractions active (applyInteraction active s i) rest).missing = _
    rw [h₂, h₁, List.append_assoc]

theorem applyInteractions_handles (active : List String) :
    ∀ (il : List Interaction) (s : ClosureState), ∀ i ∈ il,
      (∀ p, i.getPreferredProduct active = some p →
        p ∈ compKeys (applyInteractions active s il).comp) ∧
      (i.getPreferredProduct active = none →
        i.productNuclides ∈ (applyInteractions active s il).missing) := by
  intro il
  induction il with
  | nil => intro s i hi; cases hi
  | cons j rest ih =>
    intro s i hi
    rcases List.mem_cons.mp hi with rfl | hmem
    · -- the head interaction is handled by `applyInteraction` and the effect
      -- persists through the rest of the fold
      obtain ⟨e₂, h₂, _⟩ := applyInteractions_comp active rest (applyInteraction active s i)
      obtain ⟨m₂, hm₂⟩ := applyInteractions_missing active rest (applyInteraction active s i)
      constructor
      · intro p hp
        show p ∈ compKeys (applyInteractions active (applyInteraction active s i) rest).comp
        rw [h₂, compKeys_append]
        apply List.mem_append.mpr
        left
        unfold applyInteraction
        rw [hp]
        dsimp only
        split
        · assumption
        · rw [compKeys_append]
          simp [compKeys]
      · intro hp
        show i.productNuclides ∈ (applyInteractions active (applyInteraction active s i) rest).missing
        rw [hm₂]
        apply List.mem_append.mpr
        left
        unfold applyInteraction
        rw [hp]
        dsimp only
        split
        · assumption
        · simp
    · exact ih (applyInteraction active s j) i hmem

theorem closureStep_memo (dir : String → NucData) (active : List String)
    (s : ClosureState) (n : String) :
    (closureStep dir active s n).memo = s.memo ++ [n] := by
  unfold closureStep
  dsimp only
  split
  · rw [applyInteractions_memo]
  · rfl

theorem closureStep_comp (dir : String → NucData) (active : List String)
    (s : ClosureState) (n : String) :
    ∃ ext, (closureStep dir active s n).comp = s.comp ++ ext
      ∧ ∀ e ∈ ext, e.2 = (0 : ℚ) := by
  unfold closureStep
  dsimp only
  split
  · exact applyInteractions_comp active _ _
  · exact ⟨[], by simp⟩

theorem closureStep_missing (dir : String → NucData) (active : List String)
    (s : ClosureState) (n : String) :
    ∃ ext, (closureStep dir active s n).missing = s.missing ++ ext := by
  unfold closureStep
  dsimp only
  split
  · exact applyInteractions_missing active _ _
  · exact ⟨[], by simp⟩

theorem closureRun_comp (dir : String → NucData) (active : List String) :
    ∀ (fuel : Nat) (s t : ClosureState),
      closureRun dir active fuel s = some t →
      ∃ ext, t.comp = s.comp ++ ext ∧ ∀ e ∈ ext, e.2 = (0 : ℚ) := by
  intro fuel
  induction fuel with
  | zero =>
    intro s t h
    unfold closureRun at h
    revert h
    cases pendingKeys s with
    | nil => intro h; cases h; exact ⟨[], by simp⟩
    | cons a l => intro h; cases h
  | succ f ih =>
    intro s t h
    unfold closureRun at h
    revert h
    cases hp : pendingKeys s with
    | nil => intro h; cases h; exact ⟨[], by simp⟩
    | cons n l =>
      intro h
      obtain ⟨e₂, h₂, hz₂⟩ := ih (closureStep dir active s n) t h
      obtain ⟨e₁, h₁, hz₁⟩ := closureStep_comp dir active s n
      refine ⟨e₁ ++ e₂, ?_, ?_⟩
      · rw [h₂, h₁, List.append_assoc]
      · intro e he
        rcases List.mem_append.mp he with hh | hh
        · exact hz₁ e hh
        · exact hz₂ e hh

theorem closureRun_memo (dir : String → NucData) (active : List String) :
    ∀ (fuel : Nat) (s t : ClosureState),
      closureRun dir active fuel s = some t →
      ∃ ext, t.memo = s.memo ++ ext := by
  intro fuel
  induction fuel with
  | zero =>
    intro s t h
    unfold closureRun at h
    revert h
    cases pendingKeys s with
    | nil => intro h; cases h; exact ⟨[], by simp⟩
    | cons a l => intro h; cases h
  | succ f ih =>
    intro s t h
    unfold closureRun at h
    revert h
    cases hp : pendingKeys s with
    | nil => intro h; cases h; exact ⟨[], by simp⟩
    | cons n l =>
      intro h
      obtain ⟨e₂, h₂⟩ := ih (closureStep dir active s n) t h
      refine ⟨[n] ++ e₂, ?_⟩
      rw [h₂, closureStep_memo, List.append_assoc]

theorem closureRun_missing (dir : String → NucData) (active : List String) :
    ∀ (fuel : Nat) (s t : ClosureState),
      closureRun dir active fuel s = some t →
      ∃ ext, t.missing = s.missing ++ ext := by
  intro fuel
  induction fuel with
  | zero =>
    intro s t h
    unfold closureRun at h
    revert h
    cases pendingKeys s with
    | nil => intro h; cases h; exact ⟨[], by simp⟩
    | cons a l => intro h; cases h
  | succ f ih =>
    intro s t h
    unfold closureRun at h
    revert h
    cases hp : pendingKeys s with
    | nil => intro h; cases h; exact ⟨[], by simp⟩
    | cons n l =>
      intro h
      obtain ⟨e₂, h₂⟩ := ih (closureStep dir active s n) t h
      obtain ⟨e₁, h₁⟩ := closureStep_missing dir active s n
      refine ⟨e₁ ++ e₂, ?_⟩
      rw [h₂, h₁, List.append_assoc]

theorem closureRun_pending_empty (dir : String → NucData) (active : List String) :
    ∀ (fuel : Nat) (s t : ClosureState),
      closureRun dir active fuel s = some t → pendingKeys t = [] := by
  intro fuel
  induction fuel with
  | zero =>
    intro s t h
    unfold closureRun at h
    revert h
    cases hp : pendingKeys s with
    | nil => intro h; cases h; exact hp
    | cons a l => intro h; cases h
  | succ f ih =>
    intro s t h
    unfold closureRun at h
    revert h
    cases hp : pendingKeys s with
    | nil => intro h; cases h; exact hp
    | cons n l => intro h; exact ih _ t h

/-- Invariant: every visited active nuclide has had each of its interactions
handled — resolvable products are composition keys, unresolvable interactions
are recorded in `missing`. -/
def ReachInv (dir : String → NucData) (active : List String)
    (s : ClosureState) : Prop :=
  ∀ n ∈ s.memo, n ∈ active →
    ∀ i ∈ (dir n).trans ++ (dir n).decays,
      (∀ p, i.getPreferredProduct active = some p → p ∈ compKeys s.comp) ∧
      (i.getPreferredProduct active = none → i.productNuclides ∈ s.missing)

/-- Invariant: every recorded missing group stems from an unresolvable
interaction of some visited active nuclide. -/
def MissingInv (dir : String → NucData) (active : List String)
    (s : ClosureState) : Prop :=
  ∀ g ∈ s.missing, ∃ n, n ∈ s.memo ∧ n ∈ active ∧
    ∃ i, (i ∈ (dir n).trans ++ (dir n).decays) ∧
      i.getPreferredProduct active = none ∧ i.productNuclides = g

theorem applyInteraction_missing_src (active : List String) (s : ClosureState)
    (i : Interaction) :
    ∀ g ∈ (applyInteraction active s i).missing,
      g ∈ s.missing ∨
        (i.getPreferredProduct active = none ∧ i.productNuclides = g) := by
  intro g hg
  revert hg
  unfold applyInteraction
  cases h : i.getPreferredProduct active with
  | none =>
    dsimp only
    split
    · intro hg; exact Or.inl hg
    · intro hg
      rcases List.mem_append.mp hg with hh | hh
      · exact Or.inl hh
      · simp only [List.mem_singleton] at hh
        exact Or.inr ⟨rfl, hh.symm⟩
  | some p =>
    dsimp only
    split
    · intro hg; exact Or.inl hg
    · intro hg; exact Or.inl hg

theorem applyInteractions_missing_src (active : List String) :
    ∀ (il : List Interaction) (s : ClosureState),
      ∀ g ∈ (applyInteractions active s il).missing,
        g ∈ s.missing ∨ ∃ i ∈ il,
          i.getPreferredProduct active = none ∧ i.productNuclides = g := by
  intro il
  induction il with
  | nil => intro s g hg; exact Or.inl hg
  | cons i rest ih =>
    intro s g hg
    rcases ih (applyInteraction active s i) g hg with hh | ⟨j, hj, hnone, hprod⟩
    · rcases applyInteraction_missing_src active s i g hh with h1 | ⟨hnone, hprod⟩
      · exact Or.inl h1
      · exact Or.inr ⟨i, List.mem_cons_self i rest, hnone, hprod⟩
    · exact Or.inr ⟨j, List.mem_cons_of_mem i hj, hnone, hprod⟩

theorem closureStep_reachInv (dir : String → NucData) (active : List String)
    (s : ClosureState) (n : String) (h : ReachInv dir active s) :
    ReachInv dir active (closureStep dir active s n) := by
  intro m hm hact i hi
  rw [closureStep_memo] at hm
  obtain ⟨ec, hc, -⟩ := closureStep_comp dir active s n
  obtain ⟨em, hms⟩ := closureStep_missing dir active s n
  rcases List.mem_append.mp hm with hmem | hn
  · -- previously visited nuclides stay handled because the state only grows
    obtain ⟨h1, h2⟩ := h m hmem hact i hi
    constructor
    · intro p hp
      rw [hc, compKeys_append]
      exact List.mem_append.mpr (Or.inl (h1 p hp))
    · intro hp
      rw [hms]
      exact List.mem_append.mpr (Or.inl (h2 hp))
  · -- the newly visited nuclide was handled by `applyInteractions`
    simp only [List.mem_singleton] at hn
    subst hn
    unfold closureStep
    dsimp only
    rw [if_pos hact]
    exact applyInteractions_handles active _ _ i hi

theorem closureStep_missingInv (dir : String → NucData) (active : List String)
    (s : ClosureState) (n : String) (h : MissingInv dir active s) :
    MissingInv dir active (closureStep dir active s n) := by
  intro g hg
  have hmemo := closureStep_memo dir active s n
  revert hg
  unfold closureStep at hmemo ⊢
  dsimp only at hmemo ⊢
  by_cases hact : n ∈ active
  · rw [if_pos hact] at hmemo ⊢
    intro hg
    rcases applyInteractions_missing_src active _ _ g hg with hh | ⟨i, hi, hnone, hprod⟩
    · obtain ⟨m, hm, hmact, i, hi, hnone, hprod⟩ := h g hh
      exact ⟨m, by rw [hmemo]; exact List.mem_append.mpr (Or.inl hm),
        hmact, i, hi, hnone, hprod⟩
    · exact ⟨n, by rw [hmemo]; exact List.mem_append.mpr (Or.inr (by simp)),
        hact, i, hi, hnone, hprod⟩
  · rw [if_neg hact] at hmemo ⊢
    intro hg
    obtain ⟨m, hm, hmact, i, hi, hnone, hprod⟩ := h g hg
    exact ⟨m, List.mem_append.mpr (Or.inl hm), hmact, i, hi, hnone, hprod⟩

theorem closureRun_reachInv (dir : String → NucData) (active : List String) :
    ∀ (fuel : Nat) (s t : ClosureState), ReachInv dir active s →
      closureRun dir active fuel s = some t → ReachInv dir active t := by
  intro fuel
  induction fuel with
  | zero =>
    intro s t hs h
    unfold closureRun at h
    revert h
    cases pendingKeys s with
    | nil => intro h; cases h; exact hs
    | cons a l => intro h; cases h
  | succ f ih =>
    intro s t hs h
    unfold closureRun at h
    revert h
    cases hp : pendingKeys s with
    | nil => intro h; cases h; exact hs
    | cons n l =>
      intro h
      exact ih _ t (closureStep_reachInv dir active s n hs) h

theorem closureRun_missingInv (dir : String → NucData) (active : List String) :
    ∀ (fuel : Nat) (s t : ClosureState), MissingInv dir active s →
      closureRun dir active fuel s = some t → MissingInv dir active t := by
  intro fuel
  induction fuel with
  | zero =>
    intro s t hs h
    unfold closureRun at h
    revert h
    cases pendingKeys s with
    | nil => intro h; cases h; exact hs
    | cons a l => intro h; cases h
  | succ f ih =>
    intro s t hs h
    unfold closureRun at h
    revert h
    cases hp : pendingKeys s with
    | nil => intro h; cases h; exact hs
    | cons n l =>
      intro h
      exact ih _ t (closureStep_missingInv dir active s n hs) h

/-! ## Claim theorems: burn-chain closure engine (C1, C2, C10) -/

theorem reachInv_init (dir : String → NucData) (active : List String)
    (comp₀ : List (String × ℚ)) : ReachInv dir active ⟨comp₀, [], []⟩ := by
  intro n hn
  cases hn

theorem missingInv_init (dir : String → NucData) (active : List String)
    (comp₀ : List (String × ℚ)) : MissingInv dir active ⟨comp₀, [], []⟩ := by
  intro g hg
  cases hg

/-- Claim C1: for every starting composition and active set, a terminating
closure run extends the composition in place: for each visited composition
key in the active set, every transmutation/decay edge whose preferred product
resolves within the active set has that product present as a composition key,
inserted with quantity `0.0` whenever it was not already a key of the
starting composition. -/
theorem closure_extends_composition (dir : String → NucData)
    (active : List String) (comp₀ : List (String × ℚ)) (fuel : Nat)
    (s : ClosureState)
    (h : closureRun dir active fuel ⟨comp₀, [], []⟩ = some s) :
    (∃ ext, s.comp = comp₀ ++ ext) ∧
    ∀ n ∈ s.memo, n ∈ active →
      ∀ i ∈ (dir n).trans ++ (dir n).decays,
        ∀ p, i.getPreferredProduct active = some p →
          p ∈ compKeys s.comp ∧
            (p ∈ compKeys comp₀ ∨ (p, (0 : ℚ)) ∈ s.comp) := by
  obtain ⟨ext, hext, hzero⟩ := closureRun_comp dir active fuel _ s h
  have hinv := closureRun_reachInv dir active fuel _ s
    (reachInv_init dir active comp₀) h
  refine ⟨⟨ext, hext⟩, ?_⟩
  intro n hn hact i hi p hp
  have hkey := (hinv n hn hact i hi).1 p hp
  refine ⟨hkey, ?_⟩
  by_cases hp0 : p ∈ compKeys comp₀
  · exact Or.inl hp0
  · right
    rw [hext, compKeys_append] at hkey
    rcases List.mem_append.mp hkey with hh | hh
    · exact absurd hh hp0
    · obtain ⟨e, he, hfst⟩ := List.mem_map.mp hh
      have : e = (p, (0 : ℚ)) := by
        have h2 := hzero e he
        cases e
        simp only at hfst h2
        rw [hfst, h2]
      rw [hext]
      exact List.mem_append.mpr (Or.inr (this ▸ he))

/-- The worked example of the spec: U235 with one transmutation edge whose
preferred product is PU239. -/
def dirU : String → NucData := fun n =>
  if n = "U235" then ⟨[⟨["PU239"]⟩], []⟩ else ⟨[], []⟩

def activeU : List String := ["U235", "PU239"]

def finalU : ClosureState :=
  ⟨[("U235", 1), ("PU239", 0)], ["U235", "PU239"], []⟩

/-- Witness for C1, instantiating the theorem on the spec's closure example:
starting composition `U235 ↦ 1.0` with active set `(U235, PU239)` ends with
`PU239` inserted at quantity `0.0`. -/
theorem closure_extends_composition_witness :
    ("PU239", (0 : ℚ)) ∈ finalU.comp := by
  have h := closure_extends_composition dirU activeU [("U235", 1)] 3 finalU
    (by decide)
  have h2 := (h.2 "U235" (by decide) (by decide) ⟨["PU239"]⟩ (by decide)
    "PU239" (by decide)).2
  rcases h2 with hc | hc
  · exact absurd hc (by decide)
  · exact hc

/-- Claim C2: a terminating run records every unresolvable interaction of
every visited active nuclide, it raises the missing-active-nuclides
`ValueError` (whose message enumerates every recorded group) exactly when at
least one group was recorded, and it raises nothing when every interaction
resolves. -/
theorem closure_missing_failure (dir : String → NucData)
    (active : List String) (comp₀ : List (String × ℚ)) (fuel : Nat)
    (s : ClosureState)
    (h : closureRun dir active fuel ⟨comp₀, [], []⟩ = some s) :
    (∀ n ∈ s.memo, n ∈ active →
      ∀ i ∈ (dir n).trans ++ (dir n).decays,
        i.getPreferredProduct active = none → i.productNuclides ∈ s.missing) ∧
    (s.missing ≠ [] →
      ∃ n ∈ s.memo, n ∈ active ∧
        ∃ i, (i ∈ (dir n).trans ++ (dir n).decays) ∧
          i.getPreferredProduct active = none) ∧
    (initReachableActiveNuclidesThroughBurnChain dir active comp₀ fuel
      = some (s.comp, if s.missing.isEmpty then none
          else some (failOnMissingActiveNuclides s.missing))) ∧
    ((∀ n ∈ s.memo, n ∈ active →
        ∀ i ∈ (dir n).trans ++ (dir n).decays,
          i.getPreferredProduct active ≠ none) →
      initReachableActiveNuclidesThroughBurnChain dir active comp₀ fuel
        = some (s.comp, none)) := by
  have hinv := closureRun_reachInv dir active fuel _ s
    (reachInv_init dir active comp₀) h
  have hmiss := closureRun_missingInv dir active fuel _ s
    (missingInv_init dir active comp₀) h
  refine ⟨?_, ?_, ?_, ?_⟩
  · intro n hn hact i hi hp
    exact (hinv n hn hact i hi).2 hp
  · intro hne
    cases hms : s.missing with
    | nil => exact absurd hms hne
    | cons g rest =>
      obtain ⟨n, hn, hact, i, hi, hnone, -⟩ :=
        hmiss g (by rw [hms]; exact List.mem_cons_self g rest)
      exact ⟨n, hn, hact, i, hi, hnone⟩
  · unfold initReachableActiveNuclidesThroughBurnChain
    rw [h]
    rfl
  · intro hall
    have hempty : s.missing = [] := by
      cases hms : s.missing with
      | nil => rfl
      | cons g rest =>
        obtain ⟨n, hn, hact, i, hi, hnone, -⟩ :=
          hmiss g (by rw [hms]; exact List.mem_cons_self g rest)
        exact absurd hnone (hall n hn hact i hi)
    unfold initReachableActiveNuclidesThroughBurnChain
    rw [h]
    simp only [Option.map_some']
    rw [hempty]
    rfl

def activeU1 : List String := ["U235"]

def finalU1 : ClosureState := ⟨[("U235", 1)], ["U235"], [["PU239"]]⟩

/-- Witness for C2, instantiating the theorem on the spec's failing example:
with active set `(U235)` only, the call raises the missing-active-nuclides
error naming PU239's interaction group. -/
theorem closure_missing_failure_witness :
    initReachableActiveNuclidesThroughBurnChain dirU activeU1 [("U235", 1)] 3
      = some ([("U235", 1)],
          some (failOnMissingActiveNuclides [["PU239"]])) := by
  have h := closure_missing_failure dirU activeU1 [("U235", 1)] 3 finalU1
    (by decide)
  exact h.2.2.1.trans (by decide)

/-- Claim C10: the missing-active-nuclides error is decided only after the
worklist is exhausted, and a failing call still returns the extended
composition (the in-place mutation is not rolled back): the composition ends
as the starting composition plus zero-quantity insertions, with every
resolvable preferred product of a visited active nuclide present as a key. -/
theorem closure_failure_preserves_extension (dir : String → NucData)
    (active : List String) (comp₀ : List (String × ℚ)) (fuel : Nat)
    (s : ClosureState)
    (h : closureRun dir active fuel ⟨comp₀, [], []⟩ = some s) :
    pendingKeys s = [] ∧
    (∃ ext, s.comp = comp₀ ++ ext ∧ ∀ e ∈ ext, e.2 = (0 : ℚ)) ∧
    (s.missing ≠ [] →
      (initReachableActiveNuclidesThroughBurnChain dir active comp₀ fuel
        = some (s.comp, some (failOnMissingActiveNuclides s.missing))) ∧
      ∀ n ∈ s.memo, n ∈ active →
        ∀ i ∈ (dir n).trans ++ (dir n).decays,
          ∀ p, i.getPreferredProduct active = some p →
            p ∈ compKeys s.comp) := by
  have hinv := closureRun_reachInv dir active fuel _ s
    (reachInv_init dir active comp₀) h
  refine ⟨closureRun_pending_empty dir active fuel _ s h,
    closureRun_comp dir active fuel _ s h, ?_⟩
  intro hne
  constructor
  · unfold initReachableActiveNuclidesThroughBurnChain
    rw [h]
    simp only [Option.map_some']
    cases hms : s.missing with
    | nil => exact absurd hms hne
    | cons g rest => rfl
  · intro n hn hact i hi p hp
    exact (hinv n hn hact i hi).1 p hp

/-- Witness for C10: in the failing run of the spec's example the worklist is
exhausted and the (unrolled-back) composition is still returned alongside
the error. -/
theorem closure_failure_preserves_extension_witness :
    pendingKeys finalU1 = [] ∧
    initReachableActiveNuclidesThroughBurnChain dirU activeU1 [("U235", 1)] 3
      = some (finalU1.comp,
          some (failOnMissingActiveNuclides finalU1.missing)) := by
  have h := closure_failure_preserves_extension dirU activeU1 [("U235", 1)] 3
    finalU1 (by decide)
  exact ⟨h.1, (h.2.2 (by decide)).1⟩

/-! ## Claim theorems: element standard weight (C3) -/

theorem list_sum_pos_of_mem {l : List ℚ} (hnn : ∀ x ∈ l, 0 ≤ x) {x : ℚ}
    (hx : x ∈ l) (hpos : 0 < x) : 0 < l.sum := by
  induction l with
  | nil => cases hx
  | cons y ys ih =>
    rw [List.sum_cons]
    rcases List.mem_cons.mp hx with rfl | hmem
    · have : (0 : ℚ) ≤ ys.sum :=
        List.sum_nonneg (fun z hz => hnn z (List.mem_cons_of_mem _ hz))
      linarith
    · have hy : (0 : ℚ) ≤ y := hnn y (List.mem_cons_self y ys)
      have := ih (fun z hz => hnn z (List.mem_cons_of_mem _ hz)) hmem
      linarith

theorem list_sum_nonpos_of_nonpos {l : List ℚ} (h : ∀ x ∈ l, x ≤ 0) :
    l.sum ≤ 0 := by
  induction l with
  | nil => simp
  | cons y ys ih =>
    rw [List.sum_cons]
    have := ih (fun z hz => h z (List.mem_cons_of_mem _ hz))
    have := h y (List.mem_cons_self y ys)
    linarith

theorem updateWeight_isotopes (e : Element) :
    e.updateWeight.isotopes = e.isotopes := by
  unfold Element.updateWeight
  dsimp only
  split <;> rfl

theorem append_standardWeight (e : Element) (nuc : Nuclide) :
    (e.append nuc).standardWeight = e.standardWeight := by
  unfold Element.append
  split <;> rfl

theorem foldl_append_standardWeight (nucs : List Nuclide) :
    ∀ e : Element,
      (nucs.foldl Element.append e).standardWeight = e.standardWeight := by
  induction nucs with
  | nil => intro e; rfl
  | cons n rest ih =>
    intro e
    show (rest.foldl Element.append (e.append n)).standardWeight = _
    rw [ih, append_standardWeight]

/-- Claim C3: after the directory build attaches nuclides and recomputes
weights, an element with at least one attached isotope of positive abundance
has `standardWeight` equal to `(Σ weight·abundance) / (Σ abundance)` over
exactly its attached isotopes (a zero-abundance natural pseudo-nuclide
contributes nothing to either sum), and an element with no positive-abundance
isotope keeps `standardWeight` unset.  Abundances are atom fractions, hence
nonnegative. -/
theorem element_standardWeight_after_build (e0 : Element) (nucs : List Nuclide)
    (h0 : e0.standardWeight = none)
    (hnn : ∀ nuc ∈ (connectElement e0 nucs).isotopes, 0 ≤ nuc.abundance) :
    ((∃ nuc ∈ (connectElement e0 nucs).isotopes, 0 < nuc.abundance) →
      (connectElement e0 nucs).standardWeight
        = some ((((connectElement e0 nucs).isotopes.map
              (fun nuc => nuc.weight * nuc.abundance)).sum)
            / (((connectElement e0 nucs).isotopes.map
              (fun nuc => nuc.abundance)).sum))) ∧
    ((∀ nuc ∈ (connectElement e0 nucs).isotopes, nuc.abundance ≤ 0) →
      (connectElement e0 nucs).standardWeight = none) := by
  have hiso : (connectElement e0 nucs).isotopes
      = (nucs.foldl Element.append e0).isotopes := by
    unfold connectElement
    rw [updateWeight_isotopes]
  constructor
  · intro hex
    obtain ⟨nuc, hmem, hpos⟩ := hex
    rw [hiso] at hmem hnn ⊢
    have htot : 0 < ((nucs.foldl Element.append e0).isotopes.map
        (fun nuc => nuc.abundance)).sum :=
      list_sum_pos_of_mem
        (by intro x hx
            obtain ⟨m, hm, rfl⟩ := List.mem_map.mp hx
            exact hnn m hm)
        (List.mem_map.mpr ⟨nuc, hmem, rfl⟩) hpos
    show ((nucs.foldl Element.append e0).updateWeight).standardWeight = _
    simp only [Element.updateWeight]
    rw [if_pos htot]
  · intro hall
    rw [hiso] at hall hnn
    have htot : ((nucs.foldl Element.append e0).isotopes.map
        (fun nuc => nuc.abundance)).sum ≤ 0 :=
      list_sum_nonpos_of_nonpos (by
        intro x hx
        obtain ⟨m, hm, rfl⟩ := List.mem_map.mp hx
        exact hall m hm)
    show ((nucs.foldl Element.append e0).updateWeight).standardWeight = none
    simp only [Element.updateWeight]
    rw [if_neg (by linarith), foldl_append_standardWeight, h0]

def elemC : Element := ⟨6, "C", "carbon", none, []⟩

def nucC12 : Nuclide := ⟨100, 6, 12, 0, 12, 9893 / 10000, "C12", "C12_"⟩

def nucC13 : Nuclide := ⟨101, 6, 13, 0, 13, 107 / 10000, "C13", "C13_"⟩

/-- Witness for C3, the spec's carbon example: C12 (weight 12, abundance
0.9893) and C13 (weight 13, abundance 0.0107) give carbon a standard weight
of 12.0107. -/
theorem element_standardWeight_after_build_witness :
    (connectElement elemC [nucC12, nucC13]).standardWeight
      = some (120107 / 10000 : ℚ) := by
  have hiso : (connectElement elemC [nucC12, nucC13]).isotopes
      = [nucC12, nucC13] := by
    show (([nucC12, nucC13].foldl Element.append elemC).updateWeight).isotopes = _
    rw [updateWeight_isotopes]
    show ((elemC.append nucC12).append nucC13).isotopes = _
    simp [Element.append, elemC, nucC12, nucC13]
  have hnn : ∀ nuc ∈ (connectElement elemC [nucC12, nucC13]).isotopes,
      0 ≤ nuc.abundance := by
    rw [hiso]
    intro nuc hm
    rcases List.mem_cons.mp hm with rfl | hm
    · norm_num [nucC12]
    · rcases List.mem_cons.mp hm with rfl | hm
      · norm_num [nucC13]
      · cases hm
  have hmem : nucC12 ∈ (connectElement elemC [nucC12, nucC13]).isotopes := by
    rw [hiso]
    exact List.mem_cons_self _ _
  have hpos : (0 : ℚ) < nucC12.abundance := by norm_num [nucC12]
  have h := (element_standardWeight_after_build elemC [nucC12, nucC13] rfl
    hnn).1 ⟨nucC12, hmem, hpos⟩
  rw [hiso] at h
  rw [h]
  norm_num [nucC12, nucC13]

/-! ## Claim theorems: registry insertion (C4) -/

theorem dictGet?_append_self {κ : Type} [DecidableEq κ] {β : Type}
    (d : List (κ × β)) (k : κ) (v : β)
    (h : ∀ kv ∈ d, kv.1 ≠ k) : dictGet? (d ++ [(k, v)]) k = some v := by
  induction d with
  | nil => simp [dictGet?]
  | cons kv rest ih =>
    have hne : kv.1 ≠ k := h kv (List.mem_cons_self kv rest)
    show dictGet? (kv :: (rest ++ [(k, v)])) k = some v
    unfold dictGet?
    rw [List.find?_cons_of_neg _ (by simpa using hne)]
    exact ih (fun x hx => h x (List.mem_cons_of_mem kv hx))

theorem dictGet?_map_overwrite {κ : Type} [DecidableEq κ] {β : Type}
    (d : List (κ × β)) (k : κ) (v : β)
    (h : d.any (fun kv => kv.1 = k) = true) :
    dictGet? (d.map (fun kv => if kv.1 = k then (k, v) else kv)) k = some v := by
  induction d with
  | nil => cases h
  | cons kv rest ih =>
    by_cases hk : kv.1 = k
    · show dictGet? ((if kv.1 = k then (k, v) else kv) :: _) k = some v
      rw [if_pos hk]
      unfold dictGet?
      rw [List.find?_cons_of_pos _ (by simp)]
      rfl
    · have hrest : rest.any (fun kv => kv.1 = k) = true := by
        rcases List.any_eq_true.mp h with ⟨x, hx, hxk⟩
        rcases List.mem_cons.mp hx with rfl | hxm
        · exact absurd (of_decide_eq_true hxk) hk
        · exact List.any_eq_true.mpr ⟨x, hxm, hxk⟩
      show dictGet? ((if kv.1 = k then (k, v) else kv) :: _) k = some v
      rw [if_neg hk]
      unfold dictGet?
      rw [List.find?_cons_of_neg _ (by simpa using hk)]
      exact ih hrest

/-- Python dict assignment `d[k] = v` always leaves `d[k] == v`. -/
theorem dictGet?_dictInsert {κ : Type} [DecidableEq κ] {β : Type}
    (d : List (κ × β)) (k : κ) (v : β) :
    dictGet? (dictInsert d k v) k = some v := by
  unfold dictInsert
  by_cases h : d.any (fun kv => kv.1 = k) = true
  · rw [if_pos h]
    exact dictGet?_map_overwrite d k v h
  · rw [if_neg h]
    apply dictGet?_append_self
    intro kv hkv hk
    exact h (List.any_eq_true.mpr ⟨kv, hkv, by simpa using hk⟩)

def nucH2a : Nuclide := ⟨0, 1, 2, 0, 2, 0, "H2", "H02"⟩

/-- A distinct nuclide object that reuses the canonical name `H2`. -/
def nucH2b : Nuclide := ⟨1, 1, 3, 0, 3, 0, "H2", "H03"⟩

def regH : NuclidesRegistry := (emptyNuclidesRegistry.add nucH2a).1

/-- Counterexample to claim C4 as stated: inserting a second nuclide whose
canonical name collides with a registered entry does *not* fail — the add
succeeds and silently overwrites the `byName` binding, because the
membership test `nuclide in self._nuclides` compares object identity
(`Nuclide` defines `__hash__` but no `__eq__`), not names or labels. -/
theorem registry_add_collision_overwrites :
    nucH2b.name = nucH2a.name ∧
    (regH.add nucH2b).2 = none ∧
    dictGet? (regH.add nucH2b).1.byName "H2" = some nucH2b ∧
    nucH2b ≠ nucH2a := by
  decide

/-- Claim C4 (amended): `Nuclides.add` fails — leaving the registry
unchanged — exactly when the inserted object itself (reference identity) is
already registered; a distinct nuclide, even one sharing the canonical name
or label of a registered entry, is inserted, making its name and label the
current `byName`/`byLabel` bindings (overwriting any colliding ones). -/
theorem registry_add_amended (r : NuclidesRegistry) (n : Nuclide) :
    ((∃ m ∈ r.nuclideSet, m.oid = n.oid) →
      r.add n = (r, some "Nuclide already in directory")) ∧
    ((∀ m ∈ r.nuclideSet, m.oid ≠ n.oid) →
      (r.add n).2 = none ∧
      (r.add n).1.nuclideSet = r.nuclideSet ++ [n] ∧
      dictGet? (r.add n).1.byName n.name = some n ∧
      dictGet? (r.add n).1.byLabel n.label = some n) := by
  constructor
  · intro ⟨m, hm, hoid⟩
    unfold NuclidesRegistry.add
    rw [if_pos (List.any_eq_true.mpr ⟨m, hm, by simpa using hoid⟩)]
  · intro hall
    have hno : r.nuclideSet.any (fun m => m.oid == n.oid) = false := by
      rw [List.any_eq_false]
      intro m hm
      simpa using hall m hm
    unfold NuclidesRegistry.add
    rw [hno]
    exact ⟨rfl, rfl, dictGet?_dictInsert _ _ _, dictGet?_dictInsert _ _ _⟩

/-- Witness for the amended C4: re-adding the same object fails and leaves
the registry untouched, while the first insertion of a fresh object
succeeds. -/
theorem registry_add_amended_witness :
    regH.add nucH2a = (regH, some "Nuclide already in directory") ∧
    (emptyNuclidesRegistry.add nucH2a).2 = none := by
  constructor
  · exact (registry_add_amended regH nucH2a).1 ⟨nucH2a, by decide, rfl⟩
  · exact ((registry_add_amended emptyNuclidesRegistry nucH2a).2
      (by intro m hm; cases hm)).1

/-! ## Claim theorems: MCNP id (C5) -/

/-- Claim C5: `getMcnpId` returns the decimal string of `Z*1000 + A`, where a
metastable state adds `300 + 100*state` to `A`, and for Americium-242 the
offset is applied to the non-metastable state instead: state 1 yields
`"95242"` and state 0 yields `"95642"`.  (The bounds keep the padded
`"{a:03d}"` field three digits wide, which holds for all physical mass
numbers.) -/
theorem getMcnpId_spec :
    (∀ n : Nuclide, 1 ≤ n.z → ¬(n.z = 95 ∧ n.a = 242) → n.state = 0 →
      n.a ≤ 999 → n.getMcnpId = decStr (n.z * 1000 + n.a)) ∧
    (∀ n : Nuclide, 1 ≤ n.z → ¬(n.z = 95 ∧ n.a = 242) → 1 ≤ n.state →
      n.a + 300 + 100 * n.state ≤ 999 →
      n.getMcnpId = decStr (n.z * 1000 + (n.a + 300 + 100 * n.state))) ∧
    (∀ n : Nuclide, n.z = 95 → n.a = 242 → n.state = 1 →
      n.getMcnpId = "95242") ∧
    (∀ n : Nuclide, n.z = 95 → n.a = 242 → n.state = 0 →
      n.getMcnpId = "95642") := by
  refine ⟨?_, ?_, ?_, ?_⟩
  · intro n hz hna hs ha
    unfold Nuclide.getMcnpId
    rw [if_neg hna, if_neg (by omega)]
    show String.mk _ = String.mk _
    rw [decDigits_mul1000_add n.z n.a hz ha]
  · intro n hz hna hs ha
    unfold Nuclide.getMcnpId
    rw [if_neg hna, if_pos (by omega)]
    show String.mk _ = String.mk _
    rw [decDigits_mul1000_add n.z (n.a + 300 + 100 * n.state) hz ha]
  · intro n hz ha hs
    unfold Nuclide.getMcnpId
    rw [hz, ha, hs]
    decide
  · intro n hz ha hs
    unfold Nuclide.getMcnpId
    rw [hz, ha, hs]
    decide

def nucU235 : Nuclide := ⟨10, 92, 235, 0, 235, 0, "U235", "U35_"⟩

def nucTC99M : Nuclide := ⟨11, 43, 99, 1, 99, 0, "TC99M", "TC9A"⟩

def nucAM242M : Nuclide := ⟨12, 95, 242, 1, 242, 0, "AM242", "AM2A"⟩

def nucAM242G : Nuclide := ⟨13, 95, 242, 0, 242, 0, "AM242G", "AM42"⟩

/-- Witness for C5 at U235 (plain rule), TC99M (metastable rule), and the two
Americium-242 states. -/
theorem getMcnpId_spec_witness :
    nucU235.getMcnpId = decStr (92 * 1000 + 235) ∧
    nucTC99M.getMcnpId = decStr (43 * 1000 + (99 + 300 + 100 * 1)) ∧
    nucAM242M.getMcnpId = "95242" ∧
    nucAM242G.getMcnpId = "95642" := by
  refine ⟨?_, ?_, ?_, ?_⟩
  · exact getMcnpId_spec.1 nucU235 (by decide) (by decide) rfl (by decide)
  · exact getMcnpId_spec.2.1 nucTC99M (by decide) (by decide) (by decide) (by decide)
  · exact getMcnpId_spec.2.2.1 nucAM242M rfl rfl rfl
  · exact getMcnpId_spec.2.2.2 nucAM242G rfl rfl rfl

/-! ## Claim theorems: label round-trip (C6) -/

theorem labelDigits_getD_inj :
    ∀ i, i < 20 → ∀ j, j < 20 →
      labelDigits.getD i ' ' = labelDigits.getD j ' ' → i = j := by
  decide

def elemH : Element := ⟨1, "H", "hydrogen", none, []⟩

/-- Counterexample to claim C6 as stated: the mass number is only encoded
modulo `10^(4 - symbolLength)`, so the two distinct pairs `(A=3, state=0)`
and `(A=1003, state=0)` of the same element produce the same label. -/
theorem createLabel_collision :
    Nuclide.createLabel elemH 3 0 = Nuclide.createLabel elemH 1003 0 ∧
    ¬ ((3, 0) = ((1003 : Nat), (0 : Nat))) := by
  decide

/-- Claim C6 (amended): for element symbols of length 1 or 2, `A` in
`[1, 9999]` and states in `(0, 1)`, two labels agree exactly when
`(A mod 10^(4 - symbolLength), state)` agree — the label uniquely determines
the residue and the state, but not `A` itself. -/
theorem createLabel_roundtrip (e : Element) (a₁ s₁ a₂ s₂ : Nat)
    (hlen : e.symbol.length = 1 ∨ e.symbol.length = 2)
    (ha₁ : 1 ≤ a₁) (ha₁' : a₁ ≤ 9999) (ha₂ : 1 ≤ a₂) (ha₂' : a₂ ≤ 9999)
    (hs₁ : s₁ ≤ 1) (hs₂ : s₂ ≤ 1) :
    Nuclide.createLabel e a₁ s₁ = Nuclide.createLabel e a₂ s₂ ↔
      (a₁ % 10 ^ (4 - e.symbol.length) = a₂ % 10 ^ (4 - e.symbol.length)
        ∧ s₁ = s₂) := by
  have hmod10 : ∀ a : Nat, a % 10 ^ (4 - e.symbol.length) % 10 = a % 10 := by
    intro a
    rcases hlen with h | h <;> rw [h] <;> norm_num
  constructor
  · intro h
    have hd := congrArg String.data h
    simp only [Nuclide.createLabel] at hd
    rw [List.append_assoc, List.append_assoc] at hd
    have hd2 := List.append_cancel_left hd
    have hd3 := List.append_inj' hd2 rfl
    have hfst : (a₁ % 10 ^ (4 - e.symbol.length)) / 10
        = (a₂ % 10 ^ (4 - e.symbol.length)) / 10 :=
      decDigits_injective hd3.1
    have hlast : labelDigits.getD (a₁ % 10 + s₁ * 10) ' '
        = labelDigits.getD (a₂ % 10 + s₂ * 10) ' ' := by
      have := hd3.2
      simpa using this
    have hidx : a₁ % 10 + s₁ * 10 = a₂ % 10 + s₂ * 10 :=
      labelDigits_getD_inj _ (by omega) _ (by omega) hlast
    have h10 : a₁ % 10 = a₂ % 10 ∧ s₁ = s₂ := by omega
    refine ⟨?_, h10.2⟩
    have e₁ := hmod10 a₁
    have e₂ := hmod10 a₂
    omega
  · intro ⟨hmod, hs⟩
    have h10 : a₁ % 10 = a₂ % 10 := by
      have e₁ := hmod10 a₁
      have e₂ := hmod10 a₂
      omega
    unfold Nuclide.createLabel
    rw [hmod, h10, hs]

/-- Witness for the amended C6: `A = 235` and `A = 1235` share the residue
mod 1000, so uranium gives them the same label. -/
theorem createLabel_roundtrip_witness :
    Nuclide.createLabel ⟨92, "U", "uranium", none, []⟩ 235 0
      = Nuclide.createLabel ⟨92, "U", "uranium", none, []⟩ 1235 0 := by
  exact (createLabel_roundtrip ⟨92, "U", "uranium", none, []⟩ 235 0 1235 0
    (Or.inl rfl) (by decide) (by decide) (by decide) (by decide)
    (by decide) (by decide)).mpr (by decide)

/-! ## Claim theorems: equality and hashing (C7) -/

def nucU235other : Nuclide := ⟨20, 92, 235, 0, 235, 0, "U235", "U35_"⟩

/-- Counterexample to claim C7 as stated: two nuclide objects with identical
`(Z, A, state)` produced by different constructions hash equal but do *not*
compare equal, because `Nuclide` defines `__hash__` without `__eq__` and so
inherits identity-based equality. -/
theorem nuclide_eq_not_by_triple :
    nucU235.pyHash = nucU235other.pyHash ∧
    (nucU235.z, nucU235.a, nucU235.state)
      = (nucU235other.z, nucU235other.a, nucU235other.state) ∧
    ¬ nucU235.pyEq nucU235other := by
  refine ⟨rfl, rfl, ?_⟩
  intro h
  have h2 : nucU235.oid = nucU235other.oid := h
  exact absurd h2 (by decide)

/-- Claim C7 (amended): `Element` equality compares the `(Z, symbol, name)`
triple while `Element` hashing uses the name alone; `Nuclide` hashing uses
the `(A, Z, state)` triple while `Nuclide` equality is reference identity
(so cross-registry comparisons agree on hashes, not on equality). -/
theorem species_eq_hash_semantics :
    (∀ e₁ e₂ : Element,
      (e₁.pyEq e₂ ↔ (e₁.z, e₁.symbol, e₁.name) = (e₂.z, e₂.symbol, e₂.name)) ∧
      (e₁.pyHash = e₂.pyHash ↔ e₁.name = e₂.name)) ∧
    (∀ n₁ n₂ : Nuclide,
      (n₁.pyHash = n₂.pyHash ↔ (n₁.a, n₁.z, n₁.state) = (n₂.a, n₂.z, n₂.state)) ∧
      (n₁.pyEq n₂ ↔ n₁.oid = n₂.oid)) := by
  constructor
  · intro e₁ e₂
    constructor
    · simp [Element.pyEq, Prod.ext_iff]
    · simp [Element.pyHash]
  · intro n₁ n₂
    constructor
    · simp [Nuclide.pyHash]
    · simp [Nuclide.pyEq]

/-! ## Claim theorems: constructor validation (C8) -/

/-- Claim C8, against the code: supplying both or neither of element and `z`
raises the `ValueError`; exactly one with a nonzero `z` or an element
succeeds with the right `z`; but — contradicting the claim — an explicit
`z = 0` with no element does not succeed: `self.z = z or element.z` treats
`0` as falsy and evaluates `element.z` on `None`, raising
`AttributeError` (the arguments `DummyNuclideBase.__init__` passes). -/
theorem nuclideInitZ_spec :
    (∀ (el : Option Element) (z : Option Nat),
      (∃ msg, nuclideInitZ el z = .error (.valueError msg))
        ↔ el.isNone = z.isNone) ∧
    (∀ z : Nat, 0 < z → nuclideInitZ none (some z) = .ok z) ∧
    (∀ e : Element, nuclideInitZ (some e) none = .ok e.z) ∧
    nuclideInitZ none (some 0) = .error .attributeError := by
  refine ⟨?_, ?_, ?_, rfl⟩
  · intro el z
    cases el with
    | none =>
      cases z with
      | none => exact ⟨fun _ => rfl, fun _ => ⟨_, rfl⟩⟩
      | some zv =>
        constructor
        · intro ⟨msg, hmsg⟩
          by_cases hz : zv = 0
          · subst hz
            cases hmsg
          · rw [show nuclideInitZ none (some zv) = .ok zv from by
              simp [nuclideInitZ, hz]] at hmsg
            cases hmsg
        · intro h
          cases h
    | some e =>
      cases z with
      | none =>
        constructor
        · intro ⟨msg, hmsg⟩
          cases hmsg
        · intro h
          cases h
      | some zv => exact ⟨fun _ => rfl, fun _ => ⟨_, rfl⟩⟩
  · intro z hz
    simp [nuclideInitZ, Nat.pos_iff_ne_zero.mp hz]
  · intro e
    rfl

/-- Witness for C8: the validation error on both-supplied, the two good
cases, and the `AttributeError` crash on `z = 0` with no element. -/
theorem nuclideInitZ_spec_witness :
    nuclideInitZ none (some 5) = .ok 5 ∧
    nuclideInitZ (some elemH) none = .ok 1 ∧
    (∃ msg, nuclideInitZ (some elemH) (some 5) = .error (.valueError msg)) ∧
    nuclideInitZ none (some 0) = .error .attributeError := by
  refine ⟨nuclideInitZ_spec.2.1 5 (by decide), ?_, ?_, nuclideInitZ_spec.2.2.2⟩
  · exact nuclideInitZ_spec.2.2.1 elemH
  · exact (nuclideInitZ_spec.1 (some elemH) (some 5)).mpr rfl

/-! ## Claim theorems: burn-chain re-imposition (C9) -/

/-- Claim C9: a second `imposeBurnChain` call is a no-op that emits the
recoverable warning rather than raising: whatever state the first successful
call produced, the second call returns it unchanged (so every nuclide's
transmutation and decay lists are exactly those after the first call) along
with the warning. -/
theorem imposeBurnChain_second_noop (dir dir₁ : BurnDirectory)
    (bd₁ bd₂ : List (String × List (List BurnDatum))) (ws : List String)
    (h : imposeBurnChain dir bd₁ = .ok (dir₁, ws)) :
    dir₁.burnChainImposed = true ∧
    imposeBurnChain dir₁ bd₂ = .ok (dir₁, [burnChainWarning]) ∧
    ∀ dir₂ ws₂, imposeBurnChain dir₁ bd₂ = .ok (dir₂, ws₂) →
      (∀ name, dictGet? dir₂.byName name = dictGet? dir₁.byName name)
        ∧ ws₂ = [burnChainWarning] := by
  have hflag : dir₁.burnChainImposed = true := by
    unfold imposeBurnChain at h
    by_cases hb : dir.burnChainImposed
    · rw [if_pos hb] at h
      cases h
      exact hb
    · rw [if_neg hb] at h
      revert h
      cases imposeAll dir.byName bd₁ with
      | error e => intro h; cases h
      | ok m => intro h; cases h; rfl
  have hsecond : imposeBurnChain dir₁ bd₂ = .ok (dir₁, [burnChainWarning]) := by
    unfold imposeBurnChain
    rw [if_pos hflag]
  refine ⟨hflag, hsecond, ?_⟩
  intro dir₂ ws₂ h₂
  rw [hsecond] at h₂
  cases h₂
  exact ⟨fun _ => rfl, rfl⟩

def burnDir0 : BurnDirectory := ⟨false, [("U235", ⟨[], [], 0⟩)]⟩

def burnData1 : List (String × List (List BurnDatum)) :=
  [("U235", [[.transmutation ["PU239"]]])]

def burnDir1 : BurnDirectory := ⟨true, [("U235", ⟨[⟨["PU239"]⟩], [], 0⟩)]⟩

/-- Witness for C9: after a first successful imposition, the second call
returns the directory unchanged together with the warning. -/
theorem imposeBurnChain_second_noop_witness :
    imposeBurnChain burnDir1 burnData1 = .ok (burnDir1, [burnChainWarning]) := by
  have h := imposeBurnChain_second_noop burnDir0 burnDir1 burnData1 burnData1
    [] (by rfl)
  exact h.2.1

end NucDir
